import Mathlib

/-!
Verification of the playlist-update pipeline.

Shallow embedding of `scripts/update_playlists.py` and
`scripts/get_spotify_refresh_token.py`.  Python strings are modelled as
`List Char` (`Str`); Python `None`/value results as `Option`; the external
catalog/playlist HTTP service as explicit oracles passed to the embedded
functions.  Each section names the source function it embeds.
-/

/-- Python strings are sequences of characters; we model them as `List Char`. -/
abbrev Str := List Char

/-- Coerce a Lean string literal to the `Str` model. -/
def str (s : String) : Str := s.data

/-- The character class `[A-Za-z0-9]` used by every regex in
`update_playlists.py`. -/
def isAlnum (c : Char) : Bool :=
  ('A' ≤ c && c ≤ 'Z') || ('a' ≤ c && c ≤ 'z') || ('0' ≤ c && c ≤ '9')

/-- Match a literal regex fragment at the start of `s`; on success return the
remainder of `s` (the regex engine's position after the literal). -/
def matchLit : Str → Str → Option Str
  | [], s => some s
  | _ :: _, [] => none
  | c :: cs, d :: ds => if c = d then matchLit cs ds else none

/-- Match the regex wildcard `.` (any character except a newline) and return
the remainder. -/
def matchDot : Str → Option Str
  | [] => none
  | c :: rest => if c = '\n' then none else some rest

/-- The regex `re.match(r"spotify:track:([A-Za-z0-9]+)", s)`: the literal fragment
followed by a maximal nonempty alphanumeric run (the capture group). -/
def schemeMatch (s : Str) : Option Str :=
  match matchLit (str "spotify:track:") s with
  | none => none
  | some rest =>
    let run := rest.takeWhile isAlnum
    if run = [] then none else some run

/-- One attempt of `re.search(r"open.spotify.com/track/([A-Za-z0-9]+)", s)`
at the current position: `open`, any character, `spotify`, any character,
`com/track/`, then a maximal nonempty alphanumeric run.  The two `.` in the
pattern are regex wildcards, not literal dots. -/
def urlMatchAt (s : Str) : Option Str :=
  match matchLit (str "open") s with
  | none => none
  | some r1 =>
  match matchDot r1 with
  | none => none
  | some r2 =>
  match matchLit (str "spotify") r2 with
  | none => none
  | some r3 =>
  match matchDot r3 with
  | none => none
  | some r4 =>
  match matchLit (str "com/track/") r4 with
  | none => none
  | some r5 =>
    let run := r5.takeWhile isAlnum
    if run = [] then none else some run

/-- The regex `re.search` for the URL pattern: try `urlMatchAt` at every position from
the left and return the first (leftmost) capture. -/
def urlSearch : Str → Option Str
  | [] => none
  | c :: rest =>
    match urlMatchAt (c :: rest) with
    | some tid => some tid
    | none => urlSearch rest

/-- Whether `re.match(r"^[A-Za-z0-9]{22}$", url)` succeeds: the first 22
characters are alphanumeric and `$` matches right after them — at the end of
the string, or (a Python regex quirk) just before a single trailing
newline.  So both a bare 22-character alphanumeric string and that string
followed by one final `"\n"` are accepted. -/
def bareIdMatch (url : Str) : Bool :=
  ((url.take 22).length = 22 && (url.take 22).all isAlnum) &&
  (url.drop 22 = [] || url.drop 22 = ['\n'])

/-- Embedding of `extract_track_id_from_url` (update_playlists.py, lines 204-219): try the
`spotify:track:` scheme prefix, then the embedded web-URL pattern, then the
bare 22-character alphanumeric whole-string match (which, through Python's
`$`, also accepts a trailing newline and then returns the whole string —
newline included — as the id). -/
def extract_track_id_from_url (url : Str) : Option Str :=
  if url = [] then none
  else
    match schemeMatch url with
    | some tid => some tid
    | none =>
      match urlSearch url with
      | some tid => some tid
      | none =>
        if bareIdMatch url then some url else none

/-- Embedding of `normalize_to_uri` (update_playlists.py, lines 222-233): return a
`spotify:track:{id}` URI for the extracted id; the trailing re-check of the
scheme prefix mirrors the source (it is unreachable when extraction failed). -/
def normalize_to_uri (maybe_uri : Str) : Option Str :=
  if maybe_uri = [] then none
  else
    match extract_track_id_from_url maybe_uri with
    | some tid => some (str "spotify:track:" ++ tid)
    | none =>
      match schemeMatch maybe_uri with
      | some _ => some maybe_uri
      | none => none

example : normalize_to_uri (str "spotify:track:4uLU6hMCjMI75M1A2tKUQC")
    = some (str "spotify:track:4uLU6hMCjMI75M1A2tKUQC") := by decide
example : normalize_to_uri (str "https://open.spotify.com/track/4uLU6hMCjMI75M1A2tKUQC")
    = some (str "spotify:track:4uLU6hMCjMI75M1A2tKUQC") := by decide
example : normalize_to_uri (str "4uLU6hMCjMI75M1A2tKUQC")
    = some (str "spotify:track:4uLU6hMCjMI75M1A2tKUQC") := by decide
example : normalize_to_uri (str "spotify:track:abc") = some (str "spotify:track:abc") := by decide
example : normalize_to_uri (str "no track here") = none := by decide

/-! Shape lemmas for the Normalizer -/

theorem matchLit_eq_some : ∀ (l s r : Str), matchLit l s = some r ↔ s = l ++ r
  | [], s, r => by simp [matchLit]
  | c :: cs, [], r => by simp [matchLit]
  | c :: cs, d :: ds, r => by
    simp only [matchLit]
    by_cases h : c = d
    · subst h
      rw [if_pos rfl, matchLit_eq_some]
      simp
    · rw [if_neg h]
      simp [List.cons_eq_cons]
      intro hdc
      exact fun _ => h hdc.symm

theorem matchLit_self_append (l r : Str) : matchLit l (l ++ r) = some r :=
  (matchLit_eq_some l (l ++ r) r).mpr rfl

theorem matchDot_eq_some (s r : Str) :
    matchDot s = some r ↔ ∃ c, s = c :: r ∧ c ≠ '\n' := by
  cases s with
  | nil => simp [matchDot]
  | cons c rest =>
    simp only [matchDot]
    by_cases h : c = '\n'
    · subst h
      rw [if_pos rfl]
      constructor
      · intro hr
        exact Option.noConfusion hr
      · rintro ⟨c', hc, hne⟩
        injection hc with h1 _
        exact absurd h1.symm hne
    · rw [if_neg h]
      constructor
      · intro hr
        injection hr with hr
        subst hr
        exact ⟨c, rfl, h⟩
      · rintro ⟨c', hc, _⟩
        injection hc with _ h2
        rw [h2]

theorem takeWhile_ne_nil_iff (p : Char → Bool) (l : Str) :
    l.takeWhile p ≠ [] ↔ ∃ c t, l = c :: t ∧ p c := by
  cases l with
  | nil => simp
  | cons c t =>
    rw [List.takeWhile_cons]
    by_cases h : p c
    · rw [if_pos h]
      constructor
      · intro _
        exact ⟨c, t, rfl, h⟩
      · intro _
        exact List.cons_ne_nil _ _
    · rw [if_neg h]
      constructor
      · intro hne
        exact absurd rfl hne
      · rintro ⟨c', t', hc, hp⟩
        injection hc with h1 _
        subst h1
        exact absurd hp h

theorem schemeMatch_shape (s tid : Str) (h : schemeMatch s = some tid) :
    tid ≠ [] ∧ ∀ c ∈ tid, isAlnum c := by
  unfold schemeMatch at h
  cases hm : matchLit (str "spotify:track:") s with
  | none => rw [hm] at h; cases h
  | some rest =>
    rw [hm] at h
    simp only at h
    by_cases hr : rest.takeWhile isAlnum = []
    · rw [if_pos hr] at h; cases h
    · rw [if_neg hr] at h
      cases h
      exact ⟨hr, fun c hc => List.mem_takeWhile_imp hc⟩

theorem urlMatchAt_shape (s tid : Str) (h : urlMatchAt s = some tid) :
    tid ≠ [] ∧ ∀ c ∈ tid, isAlnum c := by
  unfold urlMatchAt at h
  cases h1 : matchLit (str "open") s with
  | none => rw [h1] at h; cases h
  | some r1 =>
    rw [h1] at h
    simp only at h
    cases h2 : matchDot r1 with
    | none => rw [h2] at h; cases h
    | some r2 =>
      rw [h2] at h
      simp only at h
      cases h3 : matchLit (str "spotify") r2 with
      | none => rw [h3] at h; cases h
      | some r3 =>
        rw [h3] at h
        simp only at h
        cases h4 : matchDot r3 with
        | none => rw [h4] at h; cases h
        | some r4 =>
          rw [h4] at h
          simp only at h
          cases h5 : matchLit (str "com/track/") r4 with
          | none => rw [h5] at h; cases h
          | some r5 =>
            rw [h5] at h
            simp only at h
            by_cases hr : r5.takeWhile isAlnum = []
            · rw [if_pos hr] at h; cases h
            · rw [if_neg hr] at h
              cases h
              exact ⟨hr, fun c hc => List.mem_takeWhile_imp hc⟩

theorem urlSearch_shape : ∀ (s tid : Str), urlSearch s = some tid →
    tid ≠ [] ∧ ∀ c ∈ tid, isAlnum c
  | [], tid, h => by cases h
  | c :: rest, tid, h => by
    unfold urlSearch at h
    cases hm : urlMatchAt (c :: rest) with
    | some t =>
      rw [hm] at h
      cases h
      exact urlMatchAt_shape _ _ hm
    | none =>
      rw [hm] at h
      exact urlSearch_shape rest tid h

theorem bareIdMatch_cases (s : Str) (h : bareIdMatch s = true) :
    (s.length = 22 ∧ ∀ c ∈ s, isAlnum c) ∨
    ∃ t, s = t ++ ['\n'] ∧ t.length = 22 ∧ ∀ c ∈ t, isAlnum c := by
  unfold bareIdMatch at h
  simp only [Bool.and_eq_true, Bool.or_eq_true, decide_eq_true_eq] at h
  obtain ⟨⟨hlen, hall⟩, hdrop⟩ := h
  rcases hdrop with hd | hd
  · left
    have hs : s = s.take 22 := by
      conv_lhs => rw [← List.take_append_drop 22 s]
      rw [hd, List.append_nil]
    constructor
    · rw [hs]
      exact hlen
    · intro c hc
      rw [hs] at hc
      exact List.all_eq_true.mp hall c hc
  · right
    refine ⟨s.take 22, ?_, hlen, fun c hc => List.all_eq_true.mp hall c hc⟩
    conv_lhs => rw [← List.take_append_drop 22 s]
    rw [hd]

theorem extract_shape (s tid : Str) (h : extract_track_id_from_url s = some tid) :
    tid ≠ [] ∧ ((∀ c ∈ tid, isAlnum c) ∨
      ∃ t, tid = t ++ ['\n'] ∧ t.length = 22 ∧ ∀ c ∈ t, isAlnum c) := by
  unfold extract_track_id_from_url at h
  by_cases hs : s = []
  · rw [if_pos hs] at h; cases h
  · rw [if_neg hs] at h
    cases h1 : schemeMatch s with
    | some t =>
      rw [h1] at h
      cases h
      obtain ⟨hne, hall⟩ := schemeMatch_shape _ _ h1
      exact ⟨hne, Or.inl hall⟩
    | none =>
      rw [h1] at h
      cases h2 : urlSearch s with
      | some t =>
        rw [h2] at h
        cases h
        obtain ⟨hne, hall⟩ := urlSearch_shape _ _ h2
        exact ⟨hne, Or.inl hall⟩
      | none =>
        rw [h2] at h
        simp only at h
        by_cases hb : bareIdMatch s
        · rw [if_pos hb] at h
          cases h
          refine ⟨hs, ?_⟩
          rcases bareIdMatch_cases s hb with ⟨_, hall⟩ | ⟨t, hst, hlen, hall⟩
          · exact Or.inl hall
          · exact Or.inr ⟨t, hst, hlen, hall⟩
        · rw [if_neg hb] at h; cases h

theorem normalize_eq_some (s u : Str) (h : normalize_to_uri s = some u) :
    ∃ tid, extract_track_id_from_url s = some tid ∧
      u = str "spotify:track:" ++ tid := by
  unfold normalize_to_uri at h
  by_cases hs : s = []
  · rw [if_pos hs] at h; cases h
  · rw [if_neg hs] at h
    cases he : extract_track_id_from_url s with
    | some tid =>
      rw [he] at h
      cases h
      exact ⟨tid, rfl, rfl⟩
    | none =>
      rw [he] at h
      cases h1 : schemeMatch s with
      | some t =>
        exfalso
        unfold extract_track_id_from_url at he
        rw [if_neg hs, h1] at he
        cases he
      | none =>
        rw [h1] at h
        cases h

/-! Declarative characterizations of the accepted input forms -/

/-- A string beginning with the literal `spotify:track:` followed by at least
one alphanumeric character (what `re.match(r"spotify:track:([A-Za-z0-9]+)")`
accepts). -/
def SchemeForm (s : Str) : Prop :=
  ∃ c rest, s = str "spotify:track:" ++ c :: rest ∧ isAlnum c

/-- A string that starts with the web-URL pattern
`open.spotify.com/track/<id>` where each regex `.` matches any character
except a newline and the id has at least one alphanumeric character. -/
def HeadUrlForm (s : Str) : Prop :=
  ∃ a b c rest,
    s = str "open" ++ a :: (str "spotify" ++ b :: (str "com/track/" ++ c :: rest)) ∧
    a ≠ '\n' ∧ b ≠ '\n' ∧ isAlnum c

/-- A string embedding the web-URL pattern at some position (what
`re.search` accepts). -/
def UrlForm (s : Str) : Prop :=
  ∃ pre tl, s = pre ++ tl ∧ HeadUrlForm tl

/-- A bare id: the whole string is exactly 22 alphanumeric characters, or —
through Python's `$` matching just before a trailing newline — 22
alphanumeric characters followed by a single final newline. -/
def BareForm (s : Str) : Prop :=
  (s.length = 22 ∧ ∀ c ∈ s, isAlnum c) ∨
  ∃ t, s = t ++ ['\n'] ∧ t.length = 22 ∧ ∀ c ∈ t, isAlnum c

theorem bareIdMatch_iff (s : Str) : bareIdMatch s = true ↔ BareForm s := by
  constructor
  · exact fun h => bareIdMatch_cases s h
  · rintro (⟨hlen, hall⟩ | ⟨t, hs, hlen, hall⟩)
    · unfold bareIdMatch
      rw [List.take_of_length_le (le_of_eq hlen),
        List.drop_of_length_le (le_of_eq hlen)]
      simp [hlen, List.all_eq_true.mpr hall]
    · subst hs
      unfold bareIdMatch
      rw [List.take_left' hlen, List.drop_left' hlen]
      simp [hlen, List.all_eq_true.mpr hall]

theorem schemeMatch_isSome_iff (s : Str) : (schemeMatch s).isSome ↔ SchemeForm s := by
  unfold schemeMatch SchemeForm
  cases hm : matchLit (str "spotify:track:") s with
  | none =>
    simp only [Option.isSome_none, Bool.false_eq_true, false_iff]
    rintro ⟨c, rest, hs, _⟩
    rw [hs, matchLit_self_append] at hm
    cases hm
  | some rest =>
    have hs : s = str "spotify:track:" ++ rest := (matchLit_eq_some _ _ _).mp hm
    subst hs
    simp only
    constructor
    · intro hrun
      by_cases hr : rest.takeWhile isAlnum = []
      · rw [if_pos hr] at hrun
        simp at hrun
      · obtain ⟨c, t, hct, hc⟩ := (takeWhile_ne_nil_iff isAlnum rest).mp hr
        exact ⟨c, t, by rw [hct], hc⟩
    · rintro ⟨c, t, heq, hc⟩
      have hrt : rest = c :: t := by rwa [List.append_right_inj] at heq
      have hr : rest.takeWhile isAlnum ≠ [] :=
        (takeWhile_ne_nil_iff isAlnum rest).mpr ⟨c, t, hrt, hc⟩
      rw [if_neg hr]
      rfl

theorem urlMatchAt_isSome_iff (s : Str) : (urlMatchAt s).isSome ↔ HeadUrlForm s := by
  constructor
  · intro h
    unfold urlMatchAt at h
    cases h1 : matchLit (str "open") s with
    | none => rw [h1] at h; simp at h
    | some r1 =>
      rw [h1] at h
      simp only at h
      cases h2 : matchDot r1 with
      | none => rw [h2] at h; simp at h
      | some r2 =>
        rw [h2] at h
        simp only at h
        cases h3 : matchLit (str "spotify") r2 with
        | none => rw [h3] at h; simp at h
        | some r3 =>
          rw [h3] at h
          simp only at h
          cases h4 : matchDot r3 with
          | none => rw [h4] at h; simp at h
          | some r4 =>
            rw [h4] at h
            simp only at h
            cases h5 : matchLit (str "com/track/") r4 with
            | none => rw [h5] at h; simp at h
            | some r5 =>
              rw [h5] at h
              simp only at h
              by_cases hr : r5.takeWhile isAlnum = []
              · rw [if_pos hr] at h
                simp at h
              · obtain ⟨c, rest, hcr, hc⟩ := (takeWhile_ne_nil_iff isAlnum r5).mp hr
                obtain ⟨a, ha1, ha2⟩ := (matchDot_eq_some r1 r2).mp h2
                obtain ⟨b, hb1, hb2⟩ := (matchDot_eq_some r3 r4).mp h4
                refine ⟨a, b, c, rest, ?_, ha2, hb2, hc⟩
                rw [(matchLit_eq_some _ _ _).mp h1, ha1,
                    (matchLit_eq_some _ _ _).mp h3, hb1,
                    (matchLit_eq_some _ _ _).mp h5, hcr]
  · rintro ⟨a, b, c, rest, hs, ha, hb, hc⟩
    subst hs
    unfold urlMatchAt
    rw [matchLit_self_append]
    simp only [matchDot, if_neg ha]
    rw [matchLit_self_append]
    simp only [matchDot, if_neg hb]
    rw [matchLit_self_append]
    simp only
    have hr : (c :: rest).takeWhile isAlnum ≠ [] :=
      (takeWhile_ne_nil_iff isAlnum _).mpr ⟨c, rest, rfl, hc⟩
    rw [if_neg hr]
    rfl

theorem headUrlForm_not_nil : ¬ HeadUrlForm [] := by
  rintro ⟨a, b, c, rest, hs, _⟩
  have h := List.append_eq_nil.mp hs.symm
  exact absurd h.1 (by decide)

theorem urlSearch_isSome_iff : ∀ s : Str,
    (urlSearch s).isSome ↔ ∃ pre tl, s = pre ++ tl ∧ HeadUrlForm tl
  | [] => by
    simp only [urlSearch, Option.isSome_none, Bool.false_eq_true, false_iff]
    rintro ⟨pre, tl, hs, hh⟩
    have h := List.append_eq_nil.mp hs.symm
    rw [h.2] at hh
    exact headUrlForm_not_nil hh
  | c :: rest => by
    unfold urlSearch
    cases hm : urlMatchAt (c :: rest) with
    | some tid =>
      simp only [Option.isSome_some, true_iff]
      exact ⟨[], c :: rest, rfl, (urlMatchAt_isSome_iff _).mp (by rw [hm]; rfl)⟩
    | none =>
      simp only
      constructor
      · intro h
        obtain ⟨pre, tl, hs, hh⟩ := (urlSearch_isSome_iff rest).mp h
        exact ⟨c :: pre, tl, by rw [List.cons_append, hs], hh⟩
      · rintro ⟨pre, tl, hs, hh⟩
        cases pre with
        | nil =>
          simp only [List.nil_append] at hs
          subst hs
          have := (urlMatchAt_isSome_iff (c :: rest)).mpr hh
          rw [hm] at this
          simp at this
        | cons d pre' =>
          injection hs with h1 h2
          exact (urlSearch_isSome_iff rest).mpr ⟨pre', tl, h2, hh⟩

theorem extract_isSome_iff (s : Str) :
    (extract_track_id_from_url s).isSome ↔ SchemeForm s ∨ UrlForm s ∨ BareForm s := by
  unfold extract_track_id_from_url
  by_cases hs : s = []
  · subst hs
    rw [if_pos rfl]
    simp only [Option.isSome_none, Bool.false_eq_true, false_iff]
    rintro (⟨c, rest, hp, _⟩ | ⟨pre, tl, hp, hh⟩ | ⟨hl, _⟩ | ⟨t, ht, _, _⟩)
    · exact absurd (List.append_eq_nil.mp hp.symm).1 (by decide)
    · rw [(List.append_eq_nil.mp hp.symm).2] at hh
      exact headUrlForm_not_nil hh
    · simp at hl
    · exact absurd (List.append_eq_nil.mp ht.symm).2 (by decide)
  · rw [if_neg hs]
    cases h1 : schemeMatch s with
    | some t =>
      simp only [Option.isSome_some, true_iff]
      exact Or.inl ((schemeMatch_isSome_iff s).mp (by rw [h1]; rfl))
    | none =>
      simp only
      have hns : ¬ SchemeForm s := by
        intro hf
        have := (schemeMatch_isSome_iff s).mpr hf
        rw [h1] at this
        simp at this
      cases h2 : urlSearch s with
      | some t =>
        simp only [Option.isSome_some, true_iff]
        exact Or.inr (Or.inl ((urlSearch_isSome_iff s).mp (by rw [h2]; rfl)))
      | none =>
        simp only
        have hnu : ¬ UrlForm s := by
          intro hf
          have := (urlSearch_isSome_iff s).mpr hf
          rw [h2] at this
          simp at this
        by_cases hb : bareIdMatch s
        · rw [if_pos hb]
          simp only [Option.isSome_some, true_iff]
          exact Or.inr (Or.inr ((bareIdMatch_iff s).mp hb))
        · rw [if_neg hb]
          simp only [Option.isSome_none, Bool.false_eq_true, false_iff]
          rintro (hf | hf | hf)
          · exact hns hf
          · exact hnu hf
          · exact hb ((bareIdMatch_iff s).mpr hf)

theorem normalize_isSome_iff (s : Str) :
    (normalize_to_uri s).isSome ↔ (extract_track_id_from_url s).isSome := by
  unfold normalize_to_uri
  by_cases hs : s = []
  · subst hs
    rw [if_pos rfl]
    simp [extract_track_id_from_url]
  · rw [if_neg hs]
    cases he : extract_track_id_from_url s with
    | some tid => simp
    | none =>
      simp only
      cases h1 : schemeMatch s with
      | some t =>
        exfalso
        unfold extract_track_id_from_url at he
        rw [if_neg hs, h1] at he
        simp at he
      | none => simp

/-- C5 (amended).  The Normalizer succeeds exactly on the strings matching
one of the three source regimes — `spotify:track:` prefix followed by a
nonempty alphanumeric id, an embedded `open.spotify.com/track/<id>` pattern
(regex dots match any non-newline character) with a nonempty alphanumeric
id, or a bare whole-string 22-character alphanumeric id optionally followed
by a single trailing newline (Python's `$` matches before a final newline).
Every URI it returns is `spotify:track:<id>` for a nonempty id that is
alphanumeric, except that the bare form can contribute a single trailing
newline inherited from the input.  Contrary to the original claim, the id
is only guaranteed to have 22 characters in the bare case (see the
counterexample theorem). -/
theorem normalizer_forms_characterization (s : Str) :
    ((normalize_to_uri s).isSome ↔ SchemeForm s ∨ UrlForm s ∨ BareForm s) ∧
    (∀ u, normalize_to_uri s = some u →
      ∃ tid, u = str "spotify:track:" ++ tid ∧ tid ≠ [] ∧
        ((∀ c ∈ tid, isAlnum c) ∨
         ∃ t, tid = t ++ ['\n'] ∧ t.length = 22 ∧ ∀ c ∈ t, isAlnum c)) := by
  constructor
  · rw [normalize_isSome_iff]
    exact extract_isSome_iff s
  · intro u hu
    obtain ⟨tid, hext, hu'⟩ := normalize_eq_some s u hu
    obtain ⟨hne, hshape⟩ := extract_shape s tid hext
    exact ⟨tid, hu', hne, hshape⟩

/-- Witness for the amended C5 theorem at the concrete input
`spotify:track:abc`. -/
theorem normalizer_forms_characterization_witness :
    ∃ tid, str "spotify:track:abc" = str "spotify:track:" ++ tid ∧ tid ≠ [] ∧
      ((∀ c ∈ tid, isAlnum c) ∨
       ∃ t, tid = t ++ ['\n'] ∧ t.length = 22 ∧ ∀ c ∈ t, isAlnum c) :=
  (normalizer_forms_characterization (str "spotify:track:abc")).2
    (str "spotify:track:abc") (by decide)

/-- C5 counterexample.  The input string `"spotify:track:abc"` has 17 characters in total,
so it cannot embed any 22-character id, yet the Normalizer accepts it and
returns a URI whose id has 3 characters — refuting both the
"exactly when a 22-character id is embedded" and the
"id is always exactly 22 alphanumeric characters" parts of the claim. -/
theorem normalizer_22_char_counterexample :
    normalize_to_uri (str "spotify:track:abc") = some (str "spotify:track:" ++ str "abc") ∧
    (str "spotify:track:abc").length = 17 ∧ (str "abc").length = 3 := by
  decide

theorem takeWhile_append_all (p : Char → Bool) :
    ∀ (t rest : Str), (∀ c ∈ t, p c) →
      (t ++ rest).takeWhile p = t ++ rest.takeWhile p
  | [], rest, _ => by simp
  | c :: t, rest, h => by
    simp only [List.cons_append, List.takeWhile_cons]
    rw [if_pos (h c (List.mem_cons_self c t)),
      takeWhile_append_all p t rest (fun x hx => h x (List.mem_cons_of_mem c hx))]

theorem normalize_fixpoint_of_alnum (tid : Str) (hne : tid ≠ [])
    (hall : ∀ c ∈ tid, isAlnum c) :
    normalize_to_uri (str "spotify:track:" ++ tid) =
      some (str "spotify:track:" ++ tid) := by
  have hpne : str "spotify:track:" ++ tid ≠ [] := by
    intro hn
    exact absurd (List.append_eq_nil.mp hn).1 (by decide)
  have hsm : schemeMatch (str "spotify:track:" ++ tid) = some tid := by
    unfold schemeMatch
    rw [matchLit_self_append]
    simp only
    rw [List.takeWhile_eq_self_iff.mpr hall, if_neg hne]
  have hx : extract_track_id_from_url (str "spotify:track:" ++ tid) = some tid := by
    unfold extract_track_id_from_url
    rw [if_neg hpne, hsm]
  unfold normalize_to_uri
  rw [if_neg hpne, hx]

/-- C6 (amended).  The Normalizer is idempotent on every success whose URI
contains no newline; the sole exception is the bare 22-alphanumeric id with
a trailing newline (accepted through Python's `$` quirk), whose URI keeps
the newline while normalizing it again strips it.  In every case the second
normalization succeeds and yields a fixpoint of the Normalizer —
normalization stabilizes after the second application. -/
theorem normalize_stabilizes (s u : Str) (h : normalize_to_uri s = some u) :
    ('\n' ∉ u → normalize_to_uri u = some u) ∧
    ∃ w, normalize_to_uri u = some w ∧ normalize_to_uri w = some w := by
  obtain ⟨tid, hext, hu⟩ := normalize_eq_some s u h
  obtain ⟨hne, hshape⟩ := extract_shape s tid hext
  subst hu
  rcases hshape with hall | ⟨t, htid, hlen, hallt⟩
  · have hfix := normalize_fixpoint_of_alnum tid hne hall
    exact ⟨fun _ => hfix, str "spotify:track:" ++ tid, hfix, hfix⟩
  · subst htid
    have htne : t ≠ [] := by
      intro h0
      rw [h0] at hlen
      simp at hlen
    have hpne : str "spotify:track:" ++ (t ++ ['\n']) ≠ [] := by
      intro hn
      exact absurd (List.append_eq_nil.mp hn).1 (by decide)
    have hnltw : List.takeWhile isAlnum ['\n'] = [] := by decide
    have hsm : schemeMatch (str "spotify:track:" ++ (t ++ ['\n'])) = some t := by
      unfold schemeMatch
      rw [matchLit_self_append]
      simp only
      rw [takeWhile_append_all isAlnum t ['\n'] hallt, hnltw, List.append_nil,
        if_neg htne]
    have hx : extract_track_id_from_url (str "spotify:track:" ++ (t ++ ['\n'])) =
        some t := by
      unfold extract_track_id_from_url
      rw [if_neg hpne, hsm]
    have hnorm : normalize_to_uri (str "spotify:track:" ++ (t ++ ['\n'])) =
        some (str "spotify:track:" ++ t) := by
      unfold normalize_to_uri
      rw [if_neg hpne, hx]
    refine ⟨?_, str "spotify:track:" ++ t, hnorm,
      normalize_fixpoint_of_alnum t htne hallt⟩
    intro hnl
    exact absurd (by simp : '\n' ∈ str "spotify:track:" ++ (t ++ ['\n'])) hnl

/-- C6 counterexample: the Normalizer is not idempotent.  On a bare
22-alphanumeric id followed by a trailing newline — which the source's
`re.match(r"^[A-Za-z0-9]{22}$", ...)` accepts, since Python's `$` matches
just before a final newline — the first normalization keeps the newline
inside the returned URI, and normalizing that URI strips it. -/
theorem normalize_idempotent_counterexample :
    normalize_to_uri (str "AAAAAAAAAAAAAAAAAAAAAA" ++ ['\n']) =
      some (str "spotify:track:AAAAAAAAAAAAAAAAAAAAAA" ++ ['\n']) ∧
    normalize_to_uri (str "spotify:track:AAAAAAAAAAAAAAAAAAAAAA" ++ ['\n']) =
      some (str "spotify:track:AAAAAAAAAAAAAAAAAAAAAA") := by
  decide

/-- Witness for the amended C6 theorem: normalizing a web URL yields a
newline-free canonical URI on which the Normalizer is a fixpoint. -/
theorem normalize_stabilizes_witness :
    normalize_to_uri (str "spotify:track:4uLU6hMCjMI75M1A2tKUQC") =
      some (str "spotify:track:4uLU6hMCjMI75M1A2tKUQC") ∧
    ∃ w, normalize_to_uri (str "spotify:track:4uLU6hMCjMI75M1A2tKUQC") = some w ∧
      normalize_to_uri w = some w :=
  ⟨(normalize_stabilizes (str "https://open.spotify.com/track/4uLU6hMCjMI75M1A2tKUQC")
      (str "spotify:track:4uLU6hMCjMI75M1A2tKUQC") (by decide)).1 (by decide),
   (normalize_stabilizes (str "https://open.spotify.com/track/4uLU6hMCjMI75M1A2tKUQC")
      (str "spotify:track:4uLU6hMCjMI75M1A2tKUQC") (by decide)).2⟩

/-! Row Resolver (`resolve_row_to_uri`) -/

/-- A CSV row: lowercase header names mapped to trimmed values, in
spreadsheet column order.  Python dict semantics: lookup by key, values
iterated in insertion order. -/
abbrev Row := List (Str × Str)

/-- Lookup `row[key]` / `row.get(key)` of a Python dict. -/
def rowGet (row : Row) (k : Str) : Option Str :=
  (row.find? (fun kv => kv.1 == k)).map (fun kv => kv.2)

/-- Iteration order of Python `row.values()`. -/
def rowValues (row : Row) : List Str := row.map (fun kv => kv.2)

/-- Step 1 of `resolve_row_to_uri` (lines 290-294): scan every value in the
row through the Normalizer; the first success wins. -/
def scanValues : List Str → Option Str
  | [] => none
  | v :: rest =>
    if v ≠ [] then
      match normalize_to_uri v with
      | some u => some u
      | none => scanValues rest
    else scanValues rest

/-- Steps 2-3 of `resolve_row_to_uri` (lines 297-306): check a fixed list of
well-known column names through the Normalizer. -/
def tryNormKeys (row : Row) (keys : List Str) : Option Str :=
  keys.findSome? fun k =>
    match rowGet row k with
    | some v => if v ≠ [] then normalize_to_uri v else none
    | none => none

/-- Step 4 of `resolve_row_to_uri` (lines 307-315): the `id`/`track_id`
columns, including the explicit bare 22-character id conversion at line 314
(the same `re.match(r"^[A-Za-z0-9]{22}$", ...)` as the Normalizer's bare
branch, with the same Python `$`-before-trailing-newline acceptance). -/
def tryIdKeys (row : Row) : Option Str :=
  [str "id", str "track_id"].findSome? fun k =>
    match rowGet row k with
    | some v =>
      if v ≠ [] then
        match normalize_to_uri v with
        | some u => some u
        | none =>
          if bareIdMatch v then
            some (str "spotify:track:" ++ v)
          else none
      else none
    | none => none

/-- Python truthiness of `row.get("title") or row.get("name")`: the first operand wins
unless it is missing or empty (falsy). -/
def pyOrStr : Option Str → Option Str → Option Str
  | some s, b => if s = [] then b else some s
  | none, b => b

/-- Step 5 of `resolve_row_to_uri` (lines 317-325): fall back to a catalog
search when a nonempty title (or name) is present.  `search` is the
catalog-search oracle of `search_track` (title, artist column ↦ first result
URI); the `Nat` component counts issued search calls. -/
def searchFallback (search : Str → Option Str → Option Str) (row : Row) :
    Option Str × Nat :=
  match pyOrStr (rowGet row (str "title")) (rowGet row (str "name")) with
  | some t =>
    if t ≠ [] then
      match search t (rowGet row (str "artist")) with
      | some u => (some u, 1)
      | none => (none, 1)
    else (none, 0)
  | none => (none, 0)

/-- Embedding of `resolve_row_to_uri` (update_playlists.py, lines 287-325), instrumented
with the number of catalog search calls it issues. -/
def resolve_row_to_uri (search : Str → Option Str → Option Str) (row : Row) :
    Option Str × Nat :=
  match scanValues (rowValues row) with
  | some u => (some u, 0)
  | none =>
    match tryNormKeys row [str "spotify_uri", str "uri", str "track_uri"] with
    | some u => (some u, 0)
    | none =>
      match tryNormKeys row [str "spotify_url", str "url", str "track_url"] with
      | some u => (some u, 0)
      | none =>
        match tryIdKeys row with
        | some u => (some u, 0)
        | none => searchFallback search row

/-- The simplified resolver of claim C10, following the claim's words: only
scan all row values through the Normalizer, then fall back to the title/name
search. -/
def resolveSimple (search : Str → Option Str → Option Str) (row : Row) :
    Option Str × Nat :=
  match scanValues (rowValues row) with
  | some u => (some u, 0)
  | none => searchFallback search row

theorem scanValues_eq_none : ∀ l : List Str, scanValues l = none →
    ∀ v ∈ l, normalize_to_uri v = none
  | [], _, v, hv => absurd hv (List.not_mem_nil v)
  | w :: rest, h, v, hv => by
    unfold scanValues at h
    by_cases hw : w ≠ []
    · rw [if_pos hw] at h
      cases hn : normalize_to_uri w with
      | some u => rw [hn] at h; simp at h
      | none =>
        rw [hn] at h
        simp only at h
        rcases List.mem_cons.mp hv with hvw | hvr
        · rw [hvw, hn]
        · exact scanValues_eq_none rest h v hvr
    · rw [if_neg hw] at h
      rcases List.mem_cons.mp hv with hvw | hvr
      · push_neg at hw
        rw [hvw, hw]
        rfl
      · exact scanValues_eq_none rest h v hvr

theorem scanValues_eq_some : ∀ (l : List Str) (u : Str), scanValues l = some u →
    ∃ v ∈ l, normalize_to_uri v = some u
  | [], u, h => by cases h
  | w :: rest, u, h => by
    unfold scanValues at h
    by_cases hw : w ≠ []
    · rw [if_pos hw] at h
      cases hn : normalize_to_uri w with
      | some u' =>
        rw [hn] at h
        simp only at h
        injection h with h
        subst h
        exact ⟨w, List.mem_cons_self w rest, hn⟩
      | none =>
        rw [hn] at h
        simp only at h
        obtain ⟨v, hv, hnv⟩ := scanValues_eq_some rest u h
        exact ⟨v, List.mem_cons_of_mem w hv, hnv⟩
    · rw [if_neg hw] at h
      obtain ⟨v, hv, hnv⟩ := scanValues_eq_some rest u h
      exact ⟨v, List.mem_cons_of_mem w hv, hnv⟩

theorem rowGet_mem (row : Row) (k v : Str) (h : rowGet row k = some v) :
    v ∈ rowValues row := by
  unfold rowGet at h
  cases hf : row.find? (fun kv => kv.1 == k) with
  | none => rw [hf] at h; cases h
  | some kv =>
    rw [hf] at h
    injection h with h
    subst h
    exact List.mem_map_of_mem _ (List.mem_of_find?_eq_some hf)

theorem bareIdMatch_normalize_isSome (v : Str) (hb : bareIdMatch v = true) :
    (normalize_to_uri v).isSome := by
  have hv : v ≠ [] := by
    intro h0
    rw [h0] at hb
    exact absurd hb (by decide)
  unfold normalize_to_uri
  rw [if_neg hv]
  unfold extract_track_id_from_url
  rw [if_neg hv]
  cases h1 : schemeMatch v with
  | some t => simp
  | none =>
    simp only
    cases h2 : urlSearch v with
    | some t => simp
    | none =>
      simp only
      rw [if_pos hb]
      simp

theorem tryNormKeys_eq_none (row : Row) (keys : List Str)
    (hall : ∀ v ∈ rowValues row, normalize_to_uri v = none) :
    tryNormKeys row keys = none := by
  unfold tryNormKeys
  apply List.findSome?_eq_none_iff.mpr
  intro k _
  cases hg : rowGet row k with
  | none => rfl
  | some v =>
    simp only
    by_cases hv : v = []
    · rw [if_neg (by simpa using hv)]
    · rw [if_pos hv]
      exact hall v (rowGet_mem row k v hg)

theorem tryIdKeys_eq_none (row : Row)
    (hall : ∀ v ∈ rowValues row, normalize_to_uri v = none) :
    tryIdKeys row = none := by
  unfold tryIdKeys
  apply List.findSome?_eq_none_iff.mpr
  intro k _
  cases hg : rowGet row k with
  | none => rfl
  | some v =>
    simp only
    by_cases hv : v = []
    · rw [if_neg (by simpa using hv)]
    · rw [if_pos hv, hall v (rowGet_mem row k v hg)]
      simp only
      by_cases hb : bareIdMatch v
      · exfalso
        have hsome := bareIdMatch_normalize_isSome v hb
        rw [hall v (rowGet_mem row k v hg)] at hsome
        simp at hsome
      · rw [if_neg hb]

/-- C2.  If any value of the row is accepted by the Normalizer, the
resolver issues no catalog search call and returns the result of the
full-value scan — the normalized URI of the first accepted value; the
strategy chain short-circuits on that first success. -/
theorem resolver_local_uri_first (search : Str → Option Str → Option Str)
    (row : Row) (h : ∃ v ∈ rowValues row, (normalize_to_uri v).isSome) :
    (resolve_row_to_uri search row).2 = 0 ∧
    (resolve_row_to_uri search row).1 = scanValues (rowValues row) ∧
    ∃ v ∈ rowValues row,
      normalize_to_uri v = (resolve_row_to_uri search row).1 ∧
      (normalize_to_uri v).isSome := by
  cases hs : scanValues (rowValues row) with
  | none =>
    exfalso
    obtain ⟨v, hv, hsome⟩ := h
    rw [scanValues_eq_none _ hs v hv] at hsome
    simp at hsome
  | some u =>
    obtain ⟨v, hv, hnv⟩ := scanValues_eq_some _ _ hs
    refine ⟨?_, ?_, v, hv, ?_, ?_⟩ <;>
      simp [resolve_row_to_uri, hs, hnv]

/-- Witness for C2: a row with both a URI-bearing URL column and a title
resolves through the scan without any search call. -/
theorem resolver_local_uri_first_witness :
    (resolve_row_to_uri (fun _ _ => some (str "spotify:track:0000000000000000000000"))
        [(str "title", str "X"),
         (str "spotify_url", str "https://open.spotify.com/track/4uLU6hMCjMI75M1A2tKUQC")]).2 = 0 ∧
    (resolve_row_to_uri (fun _ _ => some (str "spotify:track:0000000000000000000000"))
        [(str "title", str "X"),
         (str "spotify_url", str "https://open.spotify.com/track/4uLU6hMCjMI75M1A2tKUQC")]).1 =
      scanValues (rowValues
        [(str "title", str "X"),
         (str "spotify_url", str "https://open.spotify.com/track/4uLU6hMCjMI75M1A2tKUQC")]) ∧
    ∃ v ∈ rowValues
        [(str "title", str "X"),
         (str "spotify_url", str "https://open.spotify.com/track/4uLU6hMCjMI75M1A2tKUQC")],
      normalize_to_uri v =
        (resolve_row_to_uri (fun _ _ => some (str "spotify:track:0000000000000000000000"))
          [(str "title", str "X"),
           (str "spotify_url", str "https://open.spotify.com/track/4uLU6hMCjMI75M1A2tKUQC")]).1 ∧
      (normalize_to_uri v).isSome :=
  resolver_local_uri_first _ _ (by decide)

/-- C10.  The well-known-column steps of the resolver are redundant: the
resolver is extensionally equal to the simplified scan-then-search resolver,
for every search oracle and every row. -/
theorem resolver_wellknown_columns_redundant
    (search : Str → Option Str → Option Str) (row : Row) :
    resolve_row_to_uri search row = resolveSimple search row := by
  unfold resolve_row_to_uri resolveSimple
  cases hs : scanValues (rowValues row) with
  | some u => rfl
  | none =>
    have hall := scanValues_eq_none _ hs
    rw [tryNormKeys_eq_none row _ hall, tryNormKeys_eq_none row _ hall,
      tryIdKeys_eq_none row hall]

/-! Dedup & Cap Partitioner (`partition_by_artist_limit`, `main`) -/

/-- The `chunks` generator (lines 337-339), fuelled for structural
recursion: consecutive chunks of `n` elements (`n > 0` in all uses). -/
def chunksOfAux (n : Nat) : Nat → List Str → List (List Str)
  | _, [] => []
  | 0, l => [l]
  | fuel + 1, x :: xs => ((x :: xs).take n) :: chunksOfAux n fuel ((x :: xs).drop n)

/-- Split a list into consecutive chunks of `n` elements. -/
def chunksOf (n : Nat) (l : List Str) : List (List Str) :=
  chunksOfAux n l.length l

theorem chunksOfAux_flatten (n : Nat) (hn : 0 < n) :
    ∀ (fuel : Nat) (l : List Str), l.length ≤ fuel →
      (chunksOfAux n fuel l).flatten = l
  | fuel, [], _ => by cases fuel <;> simp [chunksOfAux]
  | 0, x :: xs, h => by simp at h
  | fuel + 1, x :: xs, h => by
    unfold chunksOfAux
    rw [List.flatten_cons,
      chunksOfAux_flatten n hn fuel ((x :: xs).drop n) ?_,
      List.take_append_drop]
    have hd := List.length_drop n (x :: xs)
    simp only [List.length_cons] at h hd ⊢
    omega

theorem chunksOf_flatten (n : Nat) (hn : 0 < n) (l : List Str) :
    (chunksOf n l).flatten = l :=
  chunksOfAux_flatten n hn l.length l (Nat.le_refl _)

/-- The artist bucket of one response item (lines 350-355): a null item is
skipped (`none`); otherwise the first artist name, or the sentinel
`"Unknown"` when the service returned a null/empty artist list. -/
def artistName : Option (List Str) → Option Str
  | none => none
  | some [] => some (str "Unknown")
  | some (a :: _) => some a

/-- The artist bucket the partitioner counts a track under, for metadata
oracle `meta` (track URI ↦ null item, or its artist-name list). -/
def artistOf (meta : Str → Option (List Str)) (u : Str) : Option Str :=
  artistName (meta u)

/-- Inner loop of `partition_by_artist_limit` (lines 349-361) over one
successful chunk: the service returns one (possibly null) track object per
requested id, in request order, echoing the track's URI (the batch-metadata
interface of spec §6); `counts` is the per-artist tally shared across
chunks of one partitioning pass. -/
def partitionStep (meta : Str → Option (List Str)) (maxPerArtist : Nat) :
    List Str → (Str → Nat) → List Str × (Str → Nat)
  | [], counts => ([], counts)
  | u :: rest, counts =>
    match artistName (meta u) with
    | none => partitionStep meta maxPerArtist rest counts
    | some name =>
      if counts name < maxPerArtist then
        let res := partitionStep meta maxPerArtist rest
          (fun a => if a = name then counts name + 1 else counts a)
        (u :: res.1, res.2)
      else
        partitionStep meta maxPerArtist rest counts

/-- Outer loop of `partition_by_artist_limit` (lines 341-348): process the
chunks in order; a failed metadata-fetch call (`chunkOk i = false`) skips
that chunk entirely (`continue`), keeping the running counts. -/
def partChunks (meta : Str → Option (List Str)) (chunkOk : Nat → Bool)
    (maxPerArtist : Nat) : List (List Str) → Nat → (Str → Nat) → List Str
  | [], _, _ => []
  | c :: cs, i, counts =>
    if chunkOk i then
      let res := partitionStep meta maxPerArtist c counts
      res.1 ++ partChunks meta chunkOk maxPerArtist cs (i + 1) res.2
    else
      partChunks meta chunkOk maxPerArtist cs (i + 1) counts

/-- Embedding of `partition_by_artist_limit` (update_playlists.py, lines 328-362):
batches of 50 ids per metadata call, a fresh artist-count accumulator, at
most `max_per_artist` surviving tracks per artist. -/
def partition_by_artist_limit (uris : List Str) (meta : Str → Option (List Str))
    (chunkOk : Nat → Bool) (max_per_artist : Nat) : List Str :=
  partChunks meta chunkOk max_per_artist (chunksOf 50 uris) 0 (fun _ => 0)

/-- Lines 410-415 of `main`: remove duplicate URIs via a `seen` set,
keeping order. -/
def dedupAux : List Str → List Str → List Str
  | [], _ => []
  | u :: rest, seen =>
    if u ∈ seen then dedupAux rest seen
    else u :: dedupAux rest (u :: seen)

/-- Deduplication as performed by `main` (empty `seen` set to start). -/
def dedupUris (l : List Str) : List Str := dedupAux l []

/-- The claim's specification of deduplication: keep exactly the first
occurrence of each URI, in original relative order. -/
def keepFirstOccurrences : List Str → List Str
  | [] => []
  | u :: rest =>
    u :: keepFirstOccurrences (rest.filter (fun v => v ≠ u))
termination_by l => l.length
decreasing_by
  simp only [List.length_cons]
  exact Nat.lt_succ_of_le (List.length_filter_le _ _)

/-- Lines 409-419 of `main`: dedup once, then the two capped partitions
(N=3 and N=1) are built from the same deduplicated list; the chunk-success
oracles of the two passes are independent. -/
def mainPartitionPhase (resolved : List Str) (meta : Str → Option (List Str))
    (ok1 ok2 : Nat → Bool) : List Str × List Str :=
  let unique := dedupUris resolved
  (partition_by_artist_limit unique meta ok1 3,
   partition_by_artist_limit unique meta ok2 1)

example : dedupUris [str "A", str "B", str "A", str "C"] = [str "A", str "B", str "C"] := by decide
example : partition_by_artist_limit [str "t1", str "t2", str "t3"]
    (fun u => if u = str "t3" then some [str "Y"] else some [str "X"])
    (fun _ => true) 1 = [str "t1", str "t3"] := by decide

theorem partitionStep_sublist (meta : Str → Option (List Str)) (maxN : Nat) :
    ∀ (c : List Str) (counts : Str → Nat),
      List.Sublist (partitionStep meta maxN c counts).1 c
  | [], counts => by simp [partitionStep]
  | u :: rest, counts => by
    simp only [partitionStep]
    cases hma : artistName (meta u) with
    | none => exact (partitionStep_sublist meta maxN rest counts).cons u
    | some name =>
      simp only
      by_cases hlt : counts name < maxN
      · rw [if_pos hlt]
        exact (partitionStep_sublist meta maxN rest _).cons₂ u
      · rw [if_neg hlt]
        exact (partitionStep_sublist meta maxN rest counts).cons u

theorem partitionStep_counts (meta : Str → Option (List Str)) (maxN : Nat) :
    ∀ (c : List Str) (counts : Str → Nat) (a : Str),
      (partitionStep meta maxN c counts).2 a =
        counts a + (partitionStep meta maxN c counts).1.countP
          (fun u => artistOf meta u == some a)
  | [], counts, a => by simp [partitionStep]
  | u :: rest, counts, a => by
    simp only [partitionStep]
    cases hma : artistName (meta u) with
    | none => exact partitionStep_counts meta maxN rest counts a
    | some name =>
      simp only
      by_cases hlt : counts name < maxN
      · rw [if_pos hlt]
        simp only
        rw [List.countP_cons, partitionStep_counts meta maxN rest _ a]
        simp only [artistOf, hma]
        by_cases ha : a = name
        · subst ha
          simp [Nat.add_comm, Nat.add_left_comm, Nat.add_assoc]
        · have hb : (some name == some a) = false := by
            simp only [beq_eq_false_iff_ne, ne_eq, Option.some.injEq]
            exact fun h => ha h.symm
          rw [if_neg ha, hb]
          simp
      · rw [if_neg hlt]
        exact partitionStep_counts meta maxN rest counts a

theorem partitionStep_le (meta : Str → Option (List Str)) (maxN : Nat) :
    ∀ (c : List Str) (counts : Str → Nat) (a : Str), counts a ≤ maxN →
      (partitionStep meta maxN c counts).2 a ≤ maxN
  | [], counts, a, h => by simpa [partitionStep] using h
  | u :: rest, counts, a, h => by
    simp only [partitionStep]
    cases hma : artistName (meta u) with
    | none => exact partitionStep_le meta maxN rest counts a h
    | some name =>
      simp only
      by_cases hlt : counts name < maxN
      · rw [if_pos hlt]
        apply partitionStep_le meta maxN rest _ a
        by_cases ha : a = name
        · subst ha
          simp
          omega
        · simpa [ha] using h
      · rw [if_neg hlt]
        exact partitionStep_le meta maxN rest counts a h

theorem partChunks_counts (meta : Str → Option (List Str)) (chunkOk : Nat → Bool)
    (maxN : Nat) : ∀ (cs : List (List Str)) (i : Nat) (counts : Str → Nat) (a : Str),
      counts a ≤ maxN →
      counts a + (partChunks meta chunkOk maxN cs i counts).countP
        (fun u => artistOf meta u == some a) ≤ maxN
  | [], i, counts, a, h => by simpa [partChunks] using h
  | c :: cs, i, counts, a, h => by
    simp only [partChunks]
    by_cases hok : chunkOk i
    · rw [if_pos hok]
      rw [List.countP_append]
      have hstep := partitionStep_counts meta maxN c counts a
      have hle := partitionStep_le meta maxN c counts a h
      have hrec := partChunks_counts meta chunkOk maxN cs (i + 1)
        (partitionStep meta maxN c counts).2 a hle
      omega
    · rw [if_neg hok]
      exact partChunks_counts meta chunkOk maxN cs (i + 1) counts a h

theorem partChunks_sublist (meta : Str → Option (List Str)) (chunkOk : Nat → Bool)
    (maxN : Nat) : ∀ (cs : List (List Str)) (i : Nat) (counts : Str → Nat),
      List.Sublist (partChunks meta chunkOk maxN cs i counts) cs.flatten
  | [], i, counts => by simp [partChunks]
  | c :: cs, i, counts => by
    simp only [partChunks, List.flatten_cons]
    by_cases hok : chunkOk i
    · rw [if_pos hok]
      exact (partitionStep_sublist meta maxN c counts).append
        (partChunks_sublist meta chunkOk maxN cs (i + 1) _)
    · rw [if_neg hok]
      exact (partChunks_sublist meta chunkOk maxN cs (i + 1) counts).trans
        (List.sublist_append_right _ _)

theorem mem_partChunks (meta : Str → Option (List Str)) (chunkOk : Nat → Bool)
    (maxN : Nat) : ∀ (cs : List (List Str)) (i : Nat) (counts : Str → Nat) (u : Str),
      u ∈ partChunks meta chunkOk maxN cs i counts →
      ∃ j, ∃ hj : j < cs.length, chunkOk (i + j) = true ∧ u ∈ cs.get ⟨j, hj⟩
  | [], i, counts, u, h => by simp [partChunks] at h
  | c :: cs, i, counts, u, h => by
    simp only [partChunks] at h
    by_cases hok : chunkOk i
    · rw [if_pos hok] at h
      rcases List.mem_append.mp h with hl | hr
      · refine ⟨0, by simp, by simpa using hok, ?_⟩
        exact (partitionStep_sublist meta maxN c counts).mem hl
      · obtain ⟨j, hj, hokj, hmem⟩ := mem_partChunks meta chunkOk maxN cs (i + 1) _ u hr
        refine ⟨j + 1, by simpa using hj, ?_, hmem⟩
        rw [show i + (j + 1) = i + 1 + j by omega]
        exact hokj
    · rw [if_neg hok] at h
      obtain ⟨j, hj, hokj, hmem⟩ := mem_partChunks meta chunkOk maxN cs (i + 1) counts u h
      refine ⟨j + 1, by simpa using hj, ?_, hmem⟩
      rw [show i + (j + 1) = i + 1 + j by omega]
      exact hokj

theorem dedupAux_eq_keepFirst : ∀ (l seen : List Str),
    dedupAux l seen = keepFirstOccurrences (l.filter (fun v => decide (v ∉ seen)))
  | [], seen => by simp [dedupAux, keepFirstOccurrences]
  | u :: rest, seen => by
    simp only [dedupAux, List.filter_cons]
    by_cases hu : u ∈ seen
    · rw [if_pos hu]
      have hd : (decide (u ∉ seen)) = false := by simp [hu]
      rw [hd]
      simp only [Bool.false_eq_true, if_false]
      exact dedupAux_eq_keepFirst rest seen
    · rw [if_neg hu]
      have hd : (decide (u ∉ seen)) = true := by simp [hu]
      rw [hd]
      simp only [if_true]
      rw [keepFirstOccurrences]
      congr 1
      rw [dedupAux_eq_keepFirst rest (u :: seen), List.filter_filter]
      congr 1
      apply List.filter_congr
      intro v _
      by_cases h1 : v = u <;> by_cases h2 : v ∈ seen <;> simp [h1, h2]

theorem dedupUris_eq_keepFirst (l : List Str) :
    dedupUris l = keepFirstOccurrences l := by
  rw [dedupUris, dedupAux_eq_keepFirst]
  congr 1
  apply List.filter_eq_self.mpr
  intro a _
  simp

/-- C1.  For every ordered URI list, every artist-metadata assignment
`meta` returned by the catalog service, every chunk-success oracle, and
every cap `N ≥ 1`: the output contains at most `N` tracks per artist bucket
(each track counted under its first listed artist), and the surviving
tracks keep their input relative order (the output is a sublist of the
input). -/
theorem partition_cap_and_order (uris : List Str) (meta : Str → Option (List Str))
    (chunkOk : Nat → Bool) (N : Nat) (hN : 1 ≤ N) :
    (∀ a : Str, (partition_by_artist_limit uris meta chunkOk N).countP
        (fun u => artistOf meta u == some a) ≤ N) ∧
    List.Sublist (partition_by_artist_limit uris meta chunkOk N) uris := by
  constructor
  · intro a
    have h := partChunks_counts meta chunkOk N (chunksOf 50 uris) 0
      (fun _ => 0) a (Nat.zero_le N)
    simpa [partition_by_artist_limit] using h
  · have h := partChunks_sublist meta chunkOk N (chunksOf 50 uris) 0 (fun _ => 0)
    rw [chunksOf_flatten 50 (by norm_num) uris] at h
    exact h

/-- Witness for C1 at a concrete one-track input with cap 1. -/
theorem partition_cap_and_order_witness :
    (∀ a : Str, (partition_by_artist_limit [str "t1"] (fun _ => some [str "X"])
        (fun _ => true) 1).countP
        (fun u => artistOf (fun _ => some [str "X"]) u == some a) ≤ 1) ∧
    List.Sublist (partition_by_artist_limit [str "t1"] (fun _ => some [str "X"])
        (fun _ => true) 1) [str "t1"] :=
  partition_cap_and_order [str "t1"] (fun _ => some [str "X"]) (fun _ => true) 1
    (by decide)

/-- C7.  A track whose metadata has a null/empty artist list is counted
under the sentinel `"Unknown"` bucket, and that bucket obeys the same cap:
at most `N` tracks with `"Unknown"` artist — in particular at most `N`
null/empty-artist tracks — survive. -/
theorem partition_unknown_bucket (uris : List Str) (meta : Str → Option (List Str))
    (chunkOk : Nat → Bool) (N : Nat) :
    (∀ u, meta u = some [] → artistOf meta u = some (str "Unknown")) ∧
    (partition_by_artist_limit uris meta chunkOk N).countP
      (fun u => artistOf meta u == some (str "Unknown")) ≤ N ∧
    (partition_by_artist_limit uris meta chunkOk N).countP
      (fun u => meta u == some ([] : List Str)) ≤ N := by
  have hcap : (partition_by_artist_limit uris meta chunkOk N).countP
      (fun u => artistOf meta u == some (str "Unknown")) ≤ N := by
    have h := partChunks_counts meta chunkOk N (chunksOf 50 uris) 0
      (fun _ => 0) (str "Unknown") (Nat.zero_le N)
    simpa [partition_by_artist_limit] using h
  refine ⟨?_, hcap, ?_⟩
  · intro u h
    rw [artistOf, h]
    rfl
  · refine le_trans (List.countP_mono_left ?_) hcap
    intro x _ hx
    have hm : meta x = some [] := by simpa using hx
    simp [artistOf, hm, artistName]

/-- Witness for C7 at a concrete input whose metadata has an empty artist
list. -/
theorem partition_unknown_bucket_witness :
    artistOf (fun _ => some []) (str "t1") = some (str "Unknown") ∧
    (partition_by_artist_limit [str "t1"] (fun _ => some []) (fun _ => true) 1).countP
      (fun u => artistOf (fun _ => some []) u == some (str "Unknown")) ≤ 1 :=
  ⟨(partition_unknown_bucket [str "t1"] (fun _ => some []) (fun _ => true) 1).1
      (str "t1") rfl,
   (partition_unknown_bucket [str "t1"] (fun _ => some []) (fun _ => true) 1).2.1⟩

/-- C3.  Deduplication keeps exactly the first occurrence of each URI in
original relative order, and `main` performs it once, upstream of both
partitioning calls: both cap passes (N=3 and N=1) receive the same
deduplicated sequence, each starting from a fresh all-zero artist-count
accumulator. -/
theorem dedup_once_upstream (resolved : List Str) (meta : Str → Option (List Str))
    (ok1 ok2 : Nat → Bool) :
    dedupUris resolved = keepFirstOccurrences resolved ∧
    mainPartitionPhase resolved meta ok1 ok2 =
      (partition_by_artist_limit (dedupUris resolved) meta ok1 3,
       partition_by_artist_limit (dedupUris resolved) meta ok2 1) ∧
    partition_by_artist_limit (dedupUris resolved) meta ok1 3 =
      partChunks meta ok1 3 (chunksOf 50 (dedupUris resolved)) 0 (fun _ => 0) ∧
    partition_by_artist_limit (dedupUris resolved) meta ok2 1 =
      partChunks meta ok2 1 (chunksOf 50 (dedupUris resolved)) 0 (fun _ => 0) :=
  ⟨dedupUris_eq_keepFirst resolved, rfl, rfl, rfl⟩

/-- C4 (amended: the input list is duplicate-free, as the deduplicated
pipeline input always is).  If the metadata call for batch `i` fails, none of
that batch's tracks appear in the output; the remaining batches are still
processed — a failed batch is skipped and the loop continues with the same
running counts. -/
theorem partition_failed_batch_dropped (uris : List Str)
    (meta : Str → Option (List Str)) (chunkOk : Nat → Bool) (N i : Nat)
    (hnd : uris.Nodup) (hfail : chunkOk i = false) :
    (∀ u ∈ (chunksOf 50 uris).getD i [],
      u ∉ partition_by_artist_limit uris meta chunkOk N) ∧
    (∀ (c : List Str) (cs : List (List Str)) (j : Nat) (counts : Str → Nat),
      chunkOk j = false →
      partChunks meta chunkOk N (c :: cs) j counts =
        partChunks meta chunkOk N cs (j + 1) counts) := by
  constructor
  · intro u hu hmem
    rw [List.getD_eq_getElem?_getD] at hu
    by_cases hi : i < (chunksOf 50 uris).length
    case neg =>
      rw [List.getElem?_eq_none (by omega)] at hu
      exact absurd (by simpa using hu) (List.not_mem_nil u)
    case pos =>
    rw [List.getElem?_eq_getElem hi] at hu
    simp only [Option.getD_some] at hu
    obtain ⟨j, hj, hok, hmemj⟩ :=
      mem_partChunks meta chunkOk N (chunksOf 50 uris) 0 (fun _ => 0) u hmem
    simp only [Nat.zero_add, List.get_eq_getElem] at hok hmemj
    by_cases hij : j = i
    · subst hij
      rw [hok] at hfail
      cases hfail
    · have hflat : ((chunksOf 50 uris).flatten).Nodup := by
        rw [chunksOf_flatten 50 (by norm_num)]
        exact hnd
      have hdis := List.pairwise_iff_getElem.mp (List.nodup_flatten.mp hflat).2
      rcases Nat.lt_or_ge j i with hlt | hge
      · exact hdis j i hj hi hlt hmemj hu
      · have hlt : i < j := by omega
        exact hdis i j hi hj hlt hu hmemj
  · intro c cs j counts hj
    simp [partChunks, hj]

/-- Witness for the amended C4 theorem: a duplicate-free two-track input
whose only batch fails yields an empty output. -/
theorem partition_failed_batch_dropped_witness :
    (∀ u ∈ (chunksOf 50 [str "A", str "B"]).getD 0 [],
      u ∉ partition_by_artist_limit [str "A", str "B"] (fun _ => some [str "X"])
        (fun _ => false) 1) ∧
    (∀ (c : List Str) (cs : List (List Str)) (j : Nat) (counts : Str → Nat),
      (fun _ : Nat => (false : Bool)) j = false →
      partChunks (fun _ => some [str "X"]) (fun _ => false) 1 (c :: cs) j counts =
        partChunks (fun _ => some [str "X"]) (fun _ => false) 1 cs (j + 1) counts) :=
  partition_failed_batch_dropped [str "A", str "B"] (fun _ => some [str "X"])
    (fun _ => false) 1 0 (by decide) rfl

/-- C4 counterexample (the claim as stated, for arbitrary input lists):
with 51 copies of the same URI the first batch's metadata call fails, yet
that batch's track still appears in the output — it is re-requested and
accepted through the second (successful) batch. -/
theorem partition_failed_batch_counterexample :
    (fun i : Nat => decide (0 < i)) 0 = false ∧
    str "A" ∈ (chunksOf 50 (List.replicate 51 (str "A"))).getD 0 [] ∧
    str "A" ∈ partition_by_artist_limit (List.replicate 51 (str "A"))
      (fun _ => some [str "X"]) (fun i => decide (0 < i)) 1 := by
  decide

/-! Playlist Publisher (`add_tracks_in_batches`) -/

/-- An HTTP response to a playlist-append call: the status code and the
parsed `Retry-After` header, when present (the code defaults it to `"5"`). -/
structure HttpResp where
  status : Nat
  retryAfter : Option Nat

/-- Lines 380-386 of `add_tracks_in_batches`: one batch append.  `send i k`
is the response to the `k`-th request for batch `i` (0 = first attempt,
1 = retry).  Returns (requests issued, seconds slept, final response): on a
429 the code sleeps `Retry-After` (default 5) plus a one-second margin and
retries the same batch exactly once. -/
def postBatch (send : Nat → Nat → HttpResp) (i : Nat) : Nat × Nat × HttpResp :=
  let r1 := send i 0
  if r1.status = 429 then
    (2, r1.retryAfter.getD 5 + 1, send i 1)
  else
    (1, 0, r1)

/-- Embedding of `add_tracks_in_batches` (update_playlists.py, lines 374-389) over the
batch list: per batch the pair (requests issued, seconds slept) is recorded;
a final status outside {200, 201} aborts the whole run with `SystemExit(6)`
(`some 6`), leaving later batches unattempted. -/
def runBatches (send : Nat → Nat → HttpResp) :
    List (List Str) → Nat → List (Nat × Nat) × Option Nat
  | [], _ => ([], none)
  | _ :: rest, i =>
    let b := postBatch send i
    if b.2.2.status = 200 ∨ b.2.2.status = 201 then
      let r := runBatches send rest (i + 1)
      ((b.1, b.2.1) :: r.1, r.2)
    else
      ([(b.1, b.2.1)], some 6)

/-- Batches of 100 URIs per append request (line 377). -/
def add_tracks_in_batches (send : Nat → Nat → HttpResp) (uris : List Str) :
    List (Nat × Nat) × Option Nat :=
  runBatches send (chunksOf 100 uris) 0

theorem runBatches_attempts_le (send : Nat → Nat → HttpResp) :
    ∀ (bs : List (List Str)) (i : Nat), ∀ e ∈ (runBatches send bs i).1, e.1 ≤ 2
  | [], i, e, he => by simp [runBatches] at he
  | b :: bs, i, e, he => by
    simp only [runBatches] at he
    by_cases hok : (postBatch send i).2.2.status = 200 ∨ (postBatch send i).2.2.status = 201
    · rw [if_pos hok] at he
      simp only [List.mem_cons] at he
      rcases he with he | he
      · subst he
        unfold postBatch
        by_cases h429 : (send i 0).status = 429
        · rw [if_pos h429]
        · rw [if_neg h429]
          omega
      · exact runBatches_attempts_le send bs (i + 1) e he
    · rw [if_neg hok] at he
      simp only [List.mem_cons, List.not_mem_nil, or_false] at he
      subst he
      unfold postBatch
      by_cases h429 : (send i 0).status = 429
      · rw [if_pos h429]
      · rw [if_neg h429]
        omega

/-- C8.  During publishing: no batch is ever requested more than twice
(retried more than once); a rate-limited (429) first attempt sleeps the
service-specified `Retry-After` (default 5) plus a one-second margin and
retries that same batch exactly once; and if the retried request also fails
(status outside {200, 201}) while batch `i` is being processed, the whole
run aborts with the distinct exit code 6, recording only that batch and
attempting no later batch. -/
theorem publish_rate_limit_retry (send : Nat → Nat → HttpResp) (uris : List Str)
    (b : List Str) (bs : List (List Str)) (i : Nat) :
    (∀ e ∈ (add_tracks_in_batches send uris).1, e.1 ≤ 2) ∧
    ((send i 0).status = 429 →
      postBatch send i = (2, (send i 0).retryAfter.getD 5 + 1, send i 1)) ∧
    ((send i 0).status = 429 → (send i 1).status ≠ 200 → (send i 1).status ≠ 201 →
      runBatches send (b :: bs) i =
        ([(2, (send i 0).retryAfter.getD 5 + 1)], some 6)) := by
  refine ⟨runBatches_attempts_le send (chunksOf 100 uris) 0, ?_, ?_⟩
  · intro h429
    unfold postBatch
    rw [if_pos h429]
  · intro h429 hn200 hn201
    have hpb : postBatch send i = (2, (send i 0).retryAfter.getD 5 + 1, send i 1) := by
      unfold postBatch
      rw [if_pos h429]
    simp only [runBatches, hpb]
    rw [if_neg (by simp [hn200, hn201])]

/-- Witness for C8: a single batch whose first attempt is rate-limited
(`Retry-After: 3`) and whose retry fails with 500 aborts with exit code 6
after sleeping 4 seconds. -/
theorem publish_rate_limit_retry_witness :
    (∀ e ∈ (add_tracks_in_batches
        (fun _ k => if k = 0 then ⟨429, some 3⟩ else ⟨500, none⟩) [str "u"]).1,
      e.1 ≤ 2) ∧
    runBatches (fun _ k => if k = 0 then ⟨429, some 3⟩ else ⟨500, none⟩)
        [[str "u"]] 0 =
      ([(2, ((fun (_ k : Nat) => if k = 0 then
          (⟨429, some 3⟩ : HttpResp) else ⟨500, none⟩) 0 0).retryAfter.getD 5 + 1)],
        some 6) :=
  ⟨(publish_rate_limit_retry
      (fun _ k => if k = 0 then ⟨429, some 3⟩ else ⟨500, none⟩)
      [str "u"] [str "u"] [] 0).1,
   (publish_rate_limit_retry
      (fun _ k => if k = 0 then ⟨429, some 3⟩ else ⟨500, none⟩)
      [str "u"] [str "u"] [] 0).2.2 (by decide) (by decide) (by decide)⟩

/-! Interactive authorization helper (`get_spotify_refresh_token.py`) -/

/-- The callback server's handler-visible state (`self.server.auth_code`,
`self.server.auth_error`). -/
structure OAuthServerState where
  auth_code : Option Str
  auth_error : Option Str

/-- A file system: path ↦ contents, for the files that exist. -/
abbrev FileSystem := Str → Option Str

/-- A parsed GET request: URL path and query parameters (`urllib.parse`). -/
structure HttpReq where
  path : Str
  query : List (Str × Str)

/-- First value of a query parameter (`parse_qs(...).get(k, [None])[0]`). -/
def getParam (q : List (Str × Str)) (k : Str) : Option Str :=
  (q.find? (fun kv => kv.1 == k)).map (fun kv => kv.2)

/-- Embedding of `OAuthHandler.do_GET` (get_spotify_refresh_token.py, lines 55-86) as a
state transformer: it answers 404 off the callback path, records an error
or the captured authorization code on the server object, and writes only to
the HTTP response — it performs no file-system write, so the file system
component is returned unchanged in every branch. -/
def do_GET (st : OAuthServerState) (fs : FileSystem) (req : HttpReq) :
    OAuthServerState × FileSystem × Nat × Str :=
  if req.path ≠ str "/callback" then
    (st, fs, 404, str "Not Found")
  else
    match getParam req.query (str "error") with
    | some e => (⟨st.auth_code, some e⟩, fs, 200, str "Error from Spotify")
    | none =>
      match getParam req.query (str "code") with
      | none =>
        (⟨st.auth_code, some (str "missing_code")⟩, fs, 400,
          str "Missing code parameter.")
      | some code =>
        (⟨some code, st.auth_error⟩, fs, 200,
          str "Authorization successful. You can close this tab and return to the terminal.")

/-- The temporary file polled by the wait loop (line 194). -/
def tmpAuthCodePath : Str := str ".spotify_auth_code.tmp"

/-- Lines 178-203 of the helper's `main`: poll once per second, up to the
300-second timeout, for the temporary file's contents; `fsAt t` is the file
system visible at poll `t`. -/
def waitForAuthCode (fsAt : Nat → FileSystem) : Option Str :=
  (List.range 300).findSome? (fun t => fsAt t tmpAuthCodePath)

/-- Lines 205-213: the authorization code `main` ends up with — the polled
file's contents if one ever appeared, otherwise the operator's manually
pasted value (`none` aborts the run). -/
def acquireAuthCode (fsAt : Nat → FileSystem) (pasted : Option Str) : Option Str :=
  match waitForAuthCode fsAt with
  | some c => some c
  | none => pasted

/-- A file-system trace along which each step is either no change or the
effect of one `do_GET` handler execution: the handler is the only writer. -/
def HandlerOnlyTrace (fsAt : Nat → FileSystem) : Prop :=
  ∀ t, fsAt (t + 1) = fsAt t ∨
    ∃ st req, fsAt (t + 1) = (do_GET st (fsAt t) req).2.1

theorem do_GET_fs (st : OAuthServerState) (fs : FileSystem) (req : HttpReq) :
    (do_GET st fs req).2.1 = fs := by
  unfold do_GET
  by_cases hp : req.path ≠ str "/callback"
  · rw [if_pos hp]
  · rw [if_neg hp]
    cases getParam req.query (str "error") with
    | some e => rfl
    | none =>
      cases getParam req.query (str "code") with
      | none => rfl
      | some code => rfl

/-- C9.  The paired OAuth callback handler never writes any file, so in
every execution whose only file-system writer is that handler (and in which
the temporary file is initially absent), the wait loop's file-polling branch
never fires: automatic capture always fails, and the flow falls through to
the timeout and the manual-paste fallback. -/
theorem auth_file_polling_dead (fsAt : Nat → FileSystem) (pasted : Option Str)
    (h0 : fsAt 0 tmpAuthCodePath = none) (htr : HandlerOnlyTrace fsAt) :
    (∀ (st : OAuthServerState) (fs : FileSystem) (req : HttpReq),
      (do_GET st fs req).2.1 = fs) ∧
    waitForAuthCode fsAt = none ∧
    acquireAuthCode fsAt pasted = pasted := by
  have hconst : ∀ t, fsAt t tmpAuthCodePath = none := by
    intro t
    induction t with
    | zero => exact h0
    | succ n ih =>
      rcases htr n with he | ⟨st, req, he⟩
      · rw [he]
        exact ih
      · rw [he, do_GET_fs]
        exact ih
  have hwait : waitForAuthCode fsAt = none := by
    unfold waitForAuthCode
    apply List.findSome?_eq_none_iff.mpr
    intro t _
    exact hconst t
  refine ⟨do_GET_fs, hwait, ?_⟩
  unfold acquireAuthCode
  rw [hwait]

/-- Witness for C9: along the empty-file-system trace the automatic capture
fails and the pasted code is used. -/
theorem auth_file_polling_dead_witness :
    (∀ (st : OAuthServerState) (fs : FileSystem) (req : HttpReq),
      (do_GET st fs req).2.1 = fs) ∧
    waitForAuthCode (fun _ _ => none) = none ∧
    acquireAuthCode (fun _ _ => none) (some (str "pastedcode")) =
      some (str "pastedcode") :=
  auth_file_polling_dead (fun _ _ => none) (some (str "pastedcode")) rfl
    (fun _ => Or.inl rfl)
